import Mathlib

/-!
Verification of the Nyaya.ai ingestion-to-index pipeline.

Shallow embedding of the core of the repository:
  backend/app/rag/ingest.py               (loader, chunker, index builder, orchestrator)
  backend/app/services/embedding_service.py (lazy singleton embedding service)

Python strings are modelled as Lean strings (lists of characters), Python
dicts carrying chunk metadata as a structure, the on-disk artifact set as a
record of optional artifact contents, and the external embedding model as a
function parameter.  The character classes of the regular expressions used
by the code are modelled over ASCII.
-/

namespace Nyaya

/-- Python's ASCII whitespace class, as matched by the regex class \s
and stripped by str.strip. -/
def pyIsSpace (c : Char) : Bool :=
  c == ' ' || c == '\t' || c == '\n' || c == '\r' || c == '\x0b' || c == '\x0c'

/-- Chunk metadata record, embedding the dict built by
_parse_filename_metadata in ingest.py. -/
structure Metadata where
  law : String
  «section» : String
  category : String
  source : String
deriving DecidableEq

/-- Splitting a character list on a single separator character, embedding
Python str.split(sep) for a one-character separator. -/
def splitChar (sep : Char) : List Char → List (List Char)
  | [] => [[]]
  | c :: rest =>
    if c = sep then
      [] :: splitChar sep rest
    else
      match splitChar sep rest with
      | [] => [[c]]
      | p :: ps => (c :: p) :: ps

/-- Components of a POSIX path as pathlib computes them: split on the
separator, dropping empty components and single-dot components. -/
def pathComponents (fp : String) : List String :=
  ((splitChar '/' fp.data).map String.mk).filter (fun p => p != "" && p != ".")

/-- Embeds pathlib.PurePath.name: the final path component. -/
def pathName (fp : String) : String :=
  (pathComponents fp).getLastD ""

/-- Index of the last occurrence of a character in a list, embedding
Python's str.rfind restricted to single-character needles. -/
def lastIdxOf (c : Char) (l : List Char) : Option Nat :=
  match l.reverse.findIdx? (fun x => x == c) with
  | none => none
  | some j => some (l.length - 1 - j)

/-- Embeds pathlib.PurePath.stem: the final component without its last
suffix.  Python keeps the whole name when the last dot is at position 0
(hidden files) or is the final character. -/
def pyStem (fp : String) : String :=
  let n := pathName fp
  let l := n.data
  match lastIdxOf '.' l with
  | none => n
  | some i => if 0 < i ∧ i < l.length - 1 then String.mk (l.take i) else n

/-- Embeds Python str.split("__") on character lists: non-overlapping
left-to-right splitting on the two-underscore delimiter.  Python's split
with a non-empty separator always returns at least one piece. -/
def splitDunder : List Char → List (List Char)
  | [] => [[]]
  | [c] => [[c]]
  | c :: d :: rest =>
    if c = '_' ∧ d = '_' then
      [] :: splitDunder rest
    else
      match splitDunder (d :: rest) with
      | [] => [[c]]
      | p :: ps => (c :: p) :: ps

/-- String-level wrapper of splitDunder. -/
def pySplitDunder (s : String) : List String :=
  (splitDunder s.data).map String.mk

/-- Embeds Python str.replace(old, new) for single-character old and new. -/
def pyReplaceChar (old new : Char) (s : String) : String :=
  String.mk (s.data.map (fun c => if c = old then new else c))

/-- The field normalisation applied by _parse_filename_metadata:
.replace("-", " ").replace("_", " "). -/
def normField (s : String) : String :=
  pyReplaceChar '_' ' ' (pyReplaceChar '-' ' ' s)

/-- Embeds _parse_filename_metadata (ingest.py).  The Python guards each
list indexing with a length test, so the guarded branches use total
lookups with defaults. -/
def parse_filename_metadata (filepath : String) : Metadata :=
  let basename := pyStem filepath
  let parts := pySplitDunder basename
  { law := if 1 ≤ parts.length then normField (parts.headD "") else "Unknown"
    «section» := if 2 ≤ parts.length then normField (parts.getD 1 "") else ""
    category := if 3 ≤ parts.length then normField (parts.getD 2 "") else "General"
    source := pathName filepath }

/-- Embeds _parse_filename_metadata with list indexing modelled as a
fallible operation (Python parts[i] raises IndexError when out of range):
a value of none represents the call raising. -/
def parse_filename_metadata_checked (filepath : String) : Option Metadata :=
  let basename := pyStem filepath
  let parts := pySplitDunder basename
  do
    let law ← if 1 ≤ parts.length then (parts.get? 0).map normField else some "Unknown"
    let sec ← if 2 ≤ parts.length then (parts.get? 1).map normField else some ""
    let cat ← if 3 ≤ parts.length then (parts.get? 2).map normField else some "General"
    some { law := law, «section» := sec, category := cat, source := pathName filepath }

theorem splitDunder_ne_nil : ∀ l : List Char, splitDunder l ≠ []
  | [] => by simp [splitDunder]
  | [c] => by simp [splitDunder]
  | c :: d :: rest => by
    rw [splitDunder]
    split
    · simp
    · cases h : splitDunder (d :: rest) <;> simp

theorem pySplitDunder_ne_nil (s : String) : pySplitDunder s ≠ [] := by
  unfold pySplitDunder
  intro h
  exact splitDunder_ne_nil s.data (List.map_eq_nil_iff.mp h)

theorem parse_checked_eq (fp : String) :
    parse_filename_metadata_checked fp = some (parse_filename_metadata fp) := by
  unfold parse_filename_metadata_checked parse_filename_metadata
  cases h : pySplitDunder (pyStem fp) with
  | nil => exact absurd h (pySplitDunder_ne_nil _)
  | cons p ps =>
    cases ps with
    | nil => simp [h]
    | cons q qs =>
      cases qs with
      | nil => simp [h]
      | cons r rs => simp [h]

/-- C4: filename metadata extraction is total over any filename string (the
guarded list indexings never fail, so the call never raises); it splits the
stem on the two-character delimiter, normalises hyphens and underscores to
spaces, falls back to defaults for missing fields, and sets source to the
original filename.  The two example filenames from the spec evaluate to the
stated metadata records. -/
theorem parse_filename_metadata_total_and_examples :
    (∀ fp : String, parse_filename_metadata_checked fp = some (parse_filename_metadata fp)) ∧
    parse_filename_metadata_checked "IPC__Section-302__Criminal.pdf" =
      some { law := "IPC", «section» := "Section 302", category := "Criminal",
             source := "IPC__Section-302__Criminal.pdf" } ∧
    parse_filename_metadata_checked "randomfile.pdf" =
      some { law := "randomfile", «section» := "", category := "General",
             source := "randomfile.pdf" } :=
  ⟨fun fp => parse_checked_eq fp, by decide, by decide⟩

/-- C10: the Unknown fallback for the law field is unreachable — splitting
the stem on the double underscore always yields at least one part, so the
law field always equals the first segment with hyphens and underscores
replaced by spaces. -/
theorem law_field_always_first_segment (fp : String) :
    1 ≤ (pySplitDunder (pyStem fp)).length ∧
    (parse_filename_metadata fp).law =
      normField ((pySplitDunder (pyStem fp)).headD "") := by
  have h : 0 < (pySplitDunder (pyStem fp)).length :=
    List.length_pos.mpr (pySplitDunder_ne_nil (pyStem fp))
  refine ⟨h, ?_⟩
  simp only [parse_filename_metadata]
  exact if_pos h

/-! ## Text cleaning (_clean_text in ingest.py)

The two footer-removal regular expressions are embedded as backtracking
matchers faithful to Python re semantics: greedy quantifiers try the
longest extent first, the optional group tries the present alternative
first, and re.sub scans left to right replacing non-overlapping matches.
-/

/-- All remainders after consuming zero or more characters satisfying p,
greedy-first, embedding a greedy star over a character class. -/
def starChoices (p : Char → Bool) (l : List Char) : List (List Char) :=
  let n := (l.takeWhile p).length
  (List.range (n + 1)).map (fun k => l.drop (n - k))

/-- All remainders after consuming one or more characters satisfying p,
greedy-first, embedding a greedy plus over a character class. -/
def plusChoices (p : Char → Bool) (l : List Char) : List (List Char) :=
  let n := (l.takeWhile p).length
  (List.range n).map (fun k => l.drop (n - k))

/-- Case-insensitive literal match: the needle is given lowercase, as the
first pattern carries re.IGNORECASE. -/
def litCI (needle : List Char) (l : List Char) : Option (List Char) :=
  if (l.take needle.length).map Char.toLower = needle then
    some (l.drop needle.length)
  else
    none

/-- Exact literal match. -/
def litEx (needle : List Char) (l : List Char) : Option (List Char) :=
  if l.take needle.length = needle then some (l.drop needle.length) else none

/-- Remainders after the optional group (of\s+\d+)? of the first pattern:
the present alternative first (greedy), then the absent one. -/
def optOfGroup (l : List Char) : List (List Char) :=
  ((litCI ['o', 'f'] l).toList.flatMap (fun r1 =>
    (plusChoices pyIsSpace r1).flatMap (fun r2 =>
      plusChoices Char.isDigit r2))) ++ [l]

/-- Matcher for the first footer pattern of _clean_text, at the head of the
input: a newline, optional whitespace, the word Page (ignoring case), one or
more spaces, digits, optional whitespace, an optional of-N group, optional
whitespace, and a closing newline.  Returns the remainder after the match. -/
def matchPage (l : List Char) : Option (List Char) :=
  match l with
  | '\n' :: r =>
    ((starChoices pyIsSpace r).flatMap (fun r1 =>
      (litCI ['p', 'a', 'g', 'e'] r1).toList.flatMap (fun r2 =>
        (plusChoices pyIsSpace r2).flatMap (fun r3 =>
          (plusChoices Char.isDigit r3).flatMap (fun r4 =>
            (starChoices pyIsSpace r4).flatMap (fun r5 =>
              (optOfGroup r5).flatMap (fun r6 =>
                (starChoices pyIsSpace r6).filterMap (fun r7 =>
                  match r7 with
                  | '\n' :: r8 => some r8
                  | _ => none)))))))).head?
  | _ => none

/-- Matcher for the second footer pattern of _clean_text, at the head of
the input: a newline, optional whitespace, a hyphen, optional whitespace,
digits, optional whitespace, a hyphen, optional whitespace, and a closing
newline.  Returns the remainder after the match. -/
def matchDash (l : List Char) : Option (List Char) :=
  match l with
  | '\n' :: r =>
    ((starChoices pyIsSpace r).flatMap (fun r1 =>
      (litEx ['-'] r1).toList.flatMap (fun r2 =>
        (starChoices pyIsSpace r2).flatMap (fun r3 =>
          (plusChoices Char.isDigit r3).flatMap (fun r4 =>
            (starChoices pyIsSpace r4).flatMap (fun r5 =>
              (litEx ['-'] r5).toList.flatMap (fun r6 =>
                (starChoices pyIsSpace r6).filterMap (fun r7 =>
                  match r7 with
                  | '\n' :: r8 => some r8
                  | _ => none)))))))).head?
  | _ => none

/-- Embeds re.sub for the two footer patterns with replacement by a single
newline: scan left to right, replace each leftmost match and continue after
it.  Both patterns replace the whole match by a single newline, emitted
here in front of the remainder; every match consumes at least one
character, so fuel bounded by the input length suffices. -/
def subRun (m : List Char → Option (List Char)) : Nat → List Char → List Char
  | 0, l => l
  | _ + 1, [] => []
  | fuel + 1, c :: rest =>
    match m (c :: rest) with
    | some rem => '\n' :: subRun m fuel rem
    | none => c :: subRun m fuel rest

/-- Collapse of newline runs: pending counts the newlines seen since the
last other character; a run of three or more produces exactly two. -/
def emitNL (k : Nat) : List Char :=
  if 3 ≤ k then ['\n', '\n'] else List.replicate k '\n'

/-- Embeds re.sub of three-or-more newlines by exactly two: each maximal
newline run of length at least three becomes two newlines. -/
def collapseGo : Nat → List Char → List Char
  | k, [] => emitNL k
  | k, c :: rest =>
    if c = '\n' then collapseGo (k + 1) rest
    else emitNL k ++ c :: collapseGo 0 rest

/-- Horizontal whitespace as matched by the character class of spaces and
tabs in _clean_text. -/
def isHWS (c : Char) : Bool :=
  c == ' ' || c == '\t'

/-- Embeds re.sub of runs of spaces and tabs by a single space: pending
records whether a run is open. -/
def hwsGo : Bool → List Char → List Char
  | pending, [] => if pending then [' '] else []
  | pending, c :: rest =>
    if isHWS c then hwsGo true rest
    else (if pending then [' '] else []) ++ c :: hwsGo false rest

/-- Embeds str.strip over the ASCII whitespace class: drop leading and
trailing whitespace. -/
def pyStrip (l : List Char) : List Char :=
  (l.dropWhile pyIsSpace).rdropWhile pyIsSpace

/-- Embeds _clean_text (ingest.py): the two footer substitutions, then the
newline collapse, then the horizontal-whitespace collapse, then strip. -/
def clean_text (s : String) : String :=
  let l0 := s.data
  let l1 := subRun matchPage (l0.length + 1) l0
  let l2 := subRun matchDash (l1.length + 1) l1
  let l3 := collapseGo 0 l2
  let l4 := hwsGo false l3
  String.mk (pyStrip l4)

/-- Witness predicate: the character list contains three consecutive
newlines somewhere. -/
def hasTriple : List Char → Bool
  | a :: b :: c :: rest => (a == '\n' && b == '\n' && c == '\n') || hasTriple (b :: c :: rest)
  | _ => false

/-- Witness predicate: the character list contains two adjacent
horizontal-whitespace characters somewhere. -/
def hasHWSRun : List Char → Bool
  | a :: b :: rest => (isHWS a && isHWS b) || hasHWSRun (b :: rest)
  | _ => false

theorem hasTriple_iff : ∀ l : List Char, hasTriple l = true ↔ ['\n', '\n', '\n'] <:+: l := by
  intro l
  induction l with
  | nil => simp [hasTriple]
  | cons a t ih =>
    rw [List.infix_cons_iff]
    cases t with
    | nil =>
      simp only [hasTriple]
      constructor
      · intro h; cases h
      · rintro (h | h)
        · have := h.length_le; simp at this
        · simp at h
    | cons b u =>
      cases u with
      | nil =>
        simp only [hasTriple]
        constructor
        · intro h; cases h
        · rintro (h | h)
          · have := h.length_le; simp at this
          · have := h.length_le; simp at this
      | cons c v =>
        rw [hasTriple, ← ih]
        constructor
        · intro h
          rcases Bool.or_eq_true_iff.mp h with h | h
          · left
            simp only [Bool.and_eq_true, beq_iff_eq] at h
            obtain ⟨⟨ha, hb⟩, hc⟩ := h
            subst ha; subst hb; subst hc
            exact ⟨v, rfl⟩
          · right; exact h
        · rintro (h | h)
          · obtain ⟨tail, htail⟩ := h
            simp only [List.cons_append, List.nil_append, List.cons.injEq] at htail
            obtain ⟨ha, hb, hc, _⟩ := htail
            apply Bool.or_eq_true_iff.mpr
            left
            simp [ha.symm, hb.symm, hc.symm]
          · exact Bool.or_eq_true_iff.mpr (Or.inr h)

theorem hasHWSRun_iff : ∀ l : List Char,
    hasHWSRun l = true ↔ ∃ a b, isHWS a = true ∧ isHWS b = true ∧ [a, b] <:+: l := by
  intro l
  induction l with
  | nil =>
    simp only [hasHWSRun]
    constructor
    · intro h; cases h
    · rintro ⟨a, b, _, _, h⟩
      have := h.length_le; simp at this
  | cons x t ih =>
    cases t with
    | nil =>
      simp only [hasHWSRun]
      constructor
      · intro h; cases h
      · rintro ⟨a, b, _, _, h⟩
        rcases List.infix_cons_iff.mp h with h | h
        · have := h.length_le; simp at this
        · have := h.length_le; simp at this
    | cons y u =>
      rw [hasHWSRun]
      constructor
      · intro h
        rcases Bool.or_eq_true_iff.mp h with h | h
        · simp only [Bool.and_eq_true] at h
          exact ⟨x, y, h.1, h.2, ⟨[], u, rfl⟩⟩
        · obtain ⟨a, b, ha, hb, hin⟩ := (ih).mp h
          exact ⟨a, b, ha, hb, List.infix_cons hin⟩
      · rintro ⟨a, b, ha, hb, hin⟩
        rcases List.infix_cons_iff.mp hin with h | h
        · obtain ⟨tail, htail⟩ := h
          simp only [List.cons_append, List.nil_append, List.cons.injEq] at htail
          obtain ⟨hax, hby, _⟩ := htail
          subst hax; subst hby
          exact Bool.or_eq_true_iff.mpr (Or.inl (by simp [ha, hb]))
        · exact Bool.or_eq_true_iff.mpr (Or.inr (ih.mpr ⟨a, b, ha, hb, h⟩))

theorem hasTriple_false_within {l₁ l₂ : List Char} (h : l₁ <:+: l₂)
    (h2 : hasTriple l₂ = false) : hasTriple l₁ = false := by
  by_contra hx
  have h1 := (hasTriple_iff l₁).mp (Bool.not_eq_false _ |>.mp hx)
  have := (hasTriple_iff l₂).mpr (h1.trans h)
  rw [this] at h2
  cases h2

theorem hasHWSRun_false_within {l₁ l₂ : List Char} (h : l₁ <:+: l₂)
    (h2 : hasHWSRun l₂ = false) : hasHWSRun l₁ = false := by
  by_contra hx
  obtain ⟨a, b, ha, hb, hin⟩ := (hasHWSRun_iff l₁).mp (Bool.not_eq_false _ |>.mp hx)
  have := (hasHWSRun_iff l₂).mpr ⟨a, b, ha, hb, hin.trans h⟩
  rw [this] at h2
  cases h2

theorem hasTriple_emitNL (k : Nat) : hasTriple (emitNL k) = false := by
  unfold emitNL
  split
  · rfl
  · rename_i h
    have : k ≤ 2 := by omega
    interval_cases k <;> rfl

theorem hasTriple_cons_of_ne (c : Char) (T : List Char) (hc : c ≠ '\n') :
    hasTriple (c :: T) = hasTriple T := by
  have hb : (c == '\n') = false := beq_eq_false_iff_ne.mpr hc
  cases T with
  | nil => simp [hasTriple]
  | cons b u =>
    cases u with
    | nil => simp [hasTriple]
    | cons d v => simp [hasTriple, hb]

theorem hasTriple_emitNL_cons (k : Nat) (c : Char) (T : List Char) (hc : c ≠ '\n') :
    hasTriple (emitNL k ++ c :: T) = hasTriple (c :: T) := by
  have hb : (c == '\n') = false := beq_eq_false_iff_ne.mpr hc
  have h2 : ∀ T', hasTriple ('\n' :: '\n' :: c :: T') = hasTriple (c :: T') := by
    intro T'
    cases T' with
    | nil => simp [hasTriple, hb]
    | cons d v => simp [hasTriple, hb]
  have h1 : ∀ T', hasTriple ('\n' :: c :: T') = hasTriple (c :: T') := by
    intro T'
    cases T' with
    | nil => simp [hasTriple]
    | cons d v => simp [hasTriple, hb]
  unfold emitNL
  split
  · exact h2 T
  · rename_i h
    have : k ≤ 2 := by omega
    interval_cases k
    · rfl
    · exact h1 T
    · exact h2 T

theorem collapseGo_no_triple : ∀ (l : List Char) (k : Nat), hasTriple (collapseGo k l) = false := by
  intro l
  induction l with
  | nil => intro k; exact hasTriple_emitNL k
  | cons c rest ih =>
    intro k
    rw [collapseGo]
    by_cases hc : c = '\n'
    · rw [if_pos hc]; exact ih (k + 1)
    · rw [if_neg hc, hasTriple_emitNL_cons k c _ hc, hasTriple_cons_of_ne c _ hc]
      exact ih 0

theorem hwsGo_true_head (r : List Char) : ∃ T, hwsGo true r = ' ' :: T := by
  induction r with
  | nil => exact ⟨[], rfl⟩
  | cons c r' ih =>
    rw [hwsGo]
    by_cases h : isHWS c = true
    · rw [if_pos h]; exact ih
    · rw [if_neg h]; exact ⟨c :: hwsGo false r', rfl⟩

theorem hwsGo_false_cons_nl (r T : List Char) (h : hwsGo false r = '\n' :: T) :
    ∃ r', r = '\n' :: r' ∧ T = hwsGo false r' := by
  cases r with
  | nil => simp [hwsGo] at h
  | cons c r' =>
    rw [hwsGo] at h
    by_cases hc : isHWS c = true
    · rw [if_pos hc] at h
      obtain ⟨T', hT'⟩ := hwsGo_true_head r'
      rw [hT'] at h
      cases h
    · rw [if_neg hc] at h
      simp at h
      exact ⟨r', by rw [h.1], h.2.symm⟩

theorem triple_infix_hwsGo : ∀ (l : List Char) (p : Bool),
    ['\n', '\n', '\n'] <:+: hwsGo p l → ['\n', '\n', '\n'] <:+: l := by
  intro l
  induction l with
  | nil =>
    intro p h
    cases p with
    | false => simpa [hwsGo] using h.length_le
    | true => simpa [hwsGo] using h.length_le
  | cons c rest ih =>
    intro p h
    rw [hwsGo] at h
    by_cases hc : isHWS c = true
    · rw [if_pos hc] at h
      exact List.infix_cons (ih true h)
    · rw [if_neg hc] at h
      have hx : ['\n', '\n', '\n'] <:+: c :: hwsGo false rest := by
        cases p with
        | false => simpa using h
        | true =>
          simp only [if_true, List.cons_append, List.nil_append] at h
          rcases List.infix_cons_iff.mp h with hpre | hinf
          · obtain ⟨t, ht⟩ := hpre
            simp only [List.cons_append, List.cons.injEq] at ht
            exact absurd ht.1 (by decide)
          · exact hinf
      rcases List.infix_cons_iff.mp hx with hpre | hinf
      · obtain ⟨t, ht⟩ := hpre
        simp only [List.cons_append, List.cons.injEq] at ht
        obtain ⟨hc1, hrest⟩ := ht
        obtain ⟨r1, hr1, hT1⟩ := hwsGo_false_cons_nl rest ('\n' :: t) hrest.symm
        obtain ⟨r2, hr2, hT2⟩ := hwsGo_false_cons_nl r1 t hT1.symm
        subst hc1
        rw [hr1, hr2]
        exact ⟨[], r2, rfl⟩
      · exact List.infix_cons (ih false hinf)

theorem hasHWSRun_cons_of_not (c : Char) (T : List Char) (hc : isHWS c = false) :
    hasHWSRun (c :: T) = hasHWSRun T := by
  cases T with
  | nil => simp [hasHWSRun]
  | cons b u => simp [hasHWSRun, hc]

theorem hwsGo_no_run : ∀ (l : List Char) (p : Bool), hasHWSRun (hwsGo p l) = false := by
  intro l
  induction l with
  | nil =>
    intro p
    cases p with
    | false => rfl
    | true => rfl
  | cons c rest ih =>
    intro p
    rw [hwsGo]
    by_cases hc : isHWS c = true
    · rw [if_pos hc]; exact ih true
    · rw [if_neg hc]
      have hcf : isHWS c = false := by
        cases h : isHWS c
        · rfl
        · exact absurd h hc
      cases p with
      | false =>
        simpa [hasHWSRun_cons_of_not c _ hcf] using ih false
      | true =>
        simp only [if_pos, List.cons_append, List.nil_append]
        have : hasHWSRun (' ' :: c :: hwsGo false rest) = hasHWSRun (c :: hwsGo false rest) := by
          simp [hasHWSRun, hcf]
        rw [this, hasHWSRun_cons_of_not c _ hcf]
        exact ih false

theorem hwsGo_mem_space : ∀ (l : List Char) (p : Bool) (c : Char),
    c ∈ hwsGo p l → isHWS c = true → c = ' ' := by
  intro l
  induction l with
  | nil =>
    intro p c hmem _
    cases p with
    | false => simp [hwsGo] at hmem
    | true =>
      simp [hwsGo] at hmem
      exact hmem
  | cons d rest ih =>
    intro p c hmem hc
    rw [hwsGo] at hmem
    by_cases hd : isHWS d = true
    · rw [if_pos hd] at hmem
      exact ih true c hmem hc
    · rw [if_neg hd] at hmem
      cases p with
      | false =>
        simp at hmem
        rcases hmem with h | h
        · subst h; exact absurd hc hd
        · exact ih false c h hc
      | true =>
        simp at hmem
        rcases hmem with h | h | h
        · exact h
        · subst h; exact absurd hc hd
        · exact ih false c h hc

theorem pyStrip_within (l : List Char) : pyStrip l <:+: l := by
  unfold pyStrip
  exact (List.rdropWhile_prefix pyIsSpace (l.dropWhile pyIsSpace)).isInfix.trans
    (List.dropWhile_suffix pyIsSpace).isInfix

/-- C7 counterexample: a page-number footer that is the last line of the
text sits on its own line, yet _clean_text leaves it in place, because both
footer patterns require a newline after the footer as well as before it. -/
theorem clean_text_keeps_trailing_footer :
    clean_text "x\nPage 1 of 2" = "x\nPage 1 of 2" ∧
    clean_text "x\nPage 1 of 2" ≠ "x" :=
  ⟨by decide, by decide⟩

/-- C7 (amended): for every input text the cleaned output contains no run
of three or more consecutive newlines, no run of two or more adjacent
horizontal whitespace characters, and no tab; footer lines of the forms
Page N of M and - N - are removed when they are both preceded and followed
by a newline, as the two example inputs show. -/
theorem clean_text_shape :
    (∀ s : String,
      hasTriple (clean_text s).data = false ∧
      hasHWSRun (clean_text s).data = false ∧
      '\t' ∉ (clean_text s).data) ∧
    clean_text "a\nPage 1 of 2\nb" = "a\nb" ∧
    clean_text "foo\n- 3 -\nbar" = "foo\nbar" ∧
    clean_text "a\n\n\n\nb" = "a\n\nb" ∧
    clean_text "a  \t b" = "a b" := by
  refine ⟨fun s => ?_, by decide, by decide, by decide, by decide⟩
  simp only [clean_text]
  set l2 := subRun matchDash ((subRun matchPage (s.data.length + 1) s.data).length + 1)
    (subRun matchPage (s.data.length + 1) s.data) with hl2
  set l3 := collapseGo 0 l2 with hl3
  set l4 := hwsGo false l3 with hl4
  have h3 : hasTriple l3 = false := collapseGo_no_triple l2 0
  have h4 : hasTriple l4 = false := by
    by_contra hx
    have hin := triple_infix_hwsGo l3 false ((hasTriple_iff _).mp (Bool.not_eq_false _ |>.mp hx))
    rw [(hasTriple_iff l3).mpr hin] at h3
    cases h3
  refine ⟨?_, ?_, ?_⟩
  · exact hasTriple_false_within (pyStrip_within l4) h4
  · exact hasHWSRun_false_within (pyStrip_within l4) (hwsGo_no_run l3 false)
  · intro hmem
    have hl4mem : '\t' ∈ l4 := (pyStrip_within l4).subset hmem
    have := hwsGo_mem_space l3 false '\t' hl4mem (by decide)
    cases this

/-! ## Embedding service (embedding_service.py)

The external TextEmbedding constructor is modelled by a load oracle giving
the outcome of each successive construction attempt, and the loaded model's
embedding computation by a function argument.  The singleton instance state
is the _model attribute together with the number of construction attempts
made so far.
-/

/-- State of the EmbeddingService singleton: the _model attribute (None
until a construction succeeds) and the number of TextEmbedding
constructions attempted. -/
structure SvcState (M : Type) where
  modelSlot : Option M
  attempts : Nat
deriving DecidableEq

/-- Embeds the model property of EmbeddingService: when _model is None the
TextEmbedding constructor runs; on success the handle is assigned to
_model, on failure the exception propagates and _model stays None. -/
def model_get {M : Type} (load : Nat → Except String M) (s : SvcState M) :
    SvcState M × Except String M :=
  match s.modelSlot with
  | some m => (s, Except.ok m)
  | none =>
    match load s.attempts with
    | Except.ok m => ({ modelSlot := some m, attempts := s.attempts + 1 }, Except.ok m)
    | Except.error e => ({ s with attempts := s.attempts + 1 }, Except.error e)

/-- Embeds EmbeddingService.embed_texts: an empty batch returns the empty
list before the model property is touched; otherwise the model embeds each
text in order. -/
def embed_texts {M α : Type} (load : Nat → Except String M)
    (run : M → String → List α) (s : SvcState M) (texts : List String) :
    SvcState M × Except String (List (List α)) :=
  if texts.isEmpty then (s, Except.ok [])
  else
    match model_get load s with
    | (s', Except.ok m) => (s', Except.ok (texts.map (run m)))
    | (s', Except.error e) => (s', Except.error e)

/-- Embeds EmbeddingService.embed_query: a one-element batch indexed at 0,
the indexing modelled as fallible. -/
def embed_query {M α : Type} (load : Nat → Except String M)
    (run : M → String → List α) (s : SvcState M) (query : String) :
    SvcState M × Except String (List α) :=
  match embed_texts load run s [query] with
  | (s', Except.ok vs) =>
    (s', match vs.head? with
         | some v => Except.ok v
         | none => Except.error "IndexError: list index out of range")
  | (s', Except.error e) => (s', Except.error e)

/-- C5: a failed model load surfaces as the error of that embed_texts call
and leaves the _model slot empty, and the next call re-attempts the load:
when the next construction attempt succeeds, the second call returns the
embeddings of the batch in order. -/
theorem embed_retry_after_load_failure {M α : Type}
    (load : Nat → Except String M) (run : M → String → List α)
    (s : SvcState M) (texts : List String) (e : String) (m : M)
    (hslot : s.modelSlot = none)
    (hfail : load s.attempts = Except.error e)
    (hok : load (s.attempts + 1) = Except.ok m)
    (hne : texts ≠ []) :
    embed_texts load run s texts = ({ s with attempts := s.attempts + 1 }, Except.error e) ∧
    ({ s with attempts := s.attempts + 1 } : SvcState M).modelSlot = none ∧
    embed_texts load run { s with attempts := s.attempts + 1 } texts =
      ({ modelSlot := some m, attempts := s.attempts + 2 }, Except.ok (texts.map (run m))) := by
  have hemp : texts.isEmpty = false := by
    cases texts with
    | nil => exact absurd rfl hne
    | cons t ts => rfl
  refine ⟨?_, hslot, ?_⟩
  · rw [embed_texts, hemp, model_get]
    simp only [hslot, hfail, Bool.false_eq_true, if_false]
  · rw [embed_texts, hemp, model_get]
    simp only [hslot, hok, Bool.false_eq_true, if_false]

/-- Concrete run of the retry theorem: the first construction attempt
fails, the second succeeds, the two calls behave as stated. -/
theorem embed_retry_after_load_failure_witness :
    embed_texts (fun k => if k = 0 then Except.error "boom" else Except.ok 7)
        (fun m _ => [m]) ⟨none, 0⟩ ["x"] = (⟨none, 1⟩, Except.error "boom") ∧
    embed_texts (fun k => if k = 0 then Except.error "boom" else Except.ok 7)
        (fun m _ => [m]) ⟨none, 1⟩ ["x"] = (⟨some 7, 2⟩, Except.ok ([[7]] : List (List Nat))) := by
  have h := @embed_retry_after_load_failure Nat Nat
    (fun k => if k = 0 then Except.error "boom" else Except.ok 7)
    (fun m _ => [m]) ⟨none, 0⟩ ["x"] "boom" 7 rfl rfl rfl (by decide)
  exact ⟨h.1, h.2.2⟩

/-! ## Chunker, index builder and orchestrator (ingest.py)

RecursiveCharacterTextSplitter.split_text is an external collaborator and
appears as a splitter function argument; the loaded embedding model appears
as a per-text embedding function.  The artifact directory is a record of
the directory flag and the three optional artifact contents; the three
write flags model success or failure of the three file writes. -/

/-- Embeds chunk_documents: split every document and pair each chunk with a
copy of the document metadata derived from its filename, documents in
order, chunks of one document in order. -/
def chunk_documents (splitter : String → List String) :
    List (String × String) → List String × List Metadata
  | [] => ([], [])
  | (fp, text) :: rest =>
    let base := parse_filename_metadata fp
    let chunks := splitter text
    let prev := chunk_documents splitter rest
    (chunks ++ prev.1, chunks.map (fun _ => base) ++ prev.2)

/-- On-disk artifact set at the index path: whether the destination
directory exists, and the contents of index.faiss (summarised by its list
of vectors), texts.npy and metadatas.npy when present. -/
structure FS (α : Type) where
  dirExists : Bool
  indexFile : Option (List (List α))
  textsFile : Option (List String)
  metadatasFile : Option (List Metadata)
deriving DecidableEq

/-- Shape of numpy.array applied to a list of rows as used on the embedding
matrix: the empty list yields the one-dimensional shape (0,), equal-length
rows yield (n, d), and a ragged list raises (none). -/
def npShape {α : Type} : List (List α) → Option (List Nat)
  | [] => some [0]
  | v :: rest =>
    if rest.all (fun r => r.length == v.length) then
      some [(v :: rest).length, v.length]
    else
      none

/-- embedding_service.embed_texts as called from build_faiss_index, with
the model already loaded: the empty-batch fast path, then one vector per
text in order. -/
def embed_texts_loaded {α : Type} (embedFn : String → List α)
    (texts : List String) : List (List α) :=
  if texts.isEmpty then [] else texts.map embedFn

/-- Embeds build_faiss_index: create the destination directory, embed the
chunk texts, take the embedding-matrix shape (indexing its dimension 1),
build the flat index over the vectors, then write index.faiss, texts.npy
and metadatas.npy in that order, in place.  A failed write raises after
the earlier writes have landed. -/
def build_faiss_index {α : Type} (embedFn : String → List α)
    (okIndex okTexts okMetas : Bool) (texts : List String)
    (metadatas : List Metadata) (fs : FS α) : FS α × Except String Unit :=
  let fs0 : FS α := { fs with dirExists := true }
  let embeddings := embed_texts_loaded embedFn texts
  match npShape embeddings with
  | none => (fs0, Except.error "ValueError: ragged embedding matrix")
  | some shape =>
    match shape[1]? with
    | none => (fs0, Except.error "IndexError: tuple index out of range")
    | some _ =>
      if okIndex then
        let fs1 := { fs0 with indexFile := some embeddings }
        if okTexts then
          let fs2 := { fs1 with textsFile := some texts }
          if okMetas then
            ({ fs2 with metadatasFile := some metadatas }, Except.ok ())
          else
            (fs2, Except.error "failed to write metadatas.npy")
        else
          (fs1, Except.error "failed to write texts.npy")
      else
        (fs0, Except.error "failed to write index.faiss")

/-- Embeds load_pdfs given the extraction outcome of each file in the
sorted directory listing: none stands for a file whose parsing raised (it
is skipped), some raw for the concatenated page text; a file is kept
exactly when its cleaned text is nonempty. -/
def load_pdfs : List (String × Option String) → List (String × String)
  | [] => []
  | (_, none) :: rest => load_pdfs rest
  | (fp, some raw) :: rest =>
    if clean_text raw = "" then load_pdfs rest else (fp, clean_text raw) :: load_pdfs rest

/-- Embeds run_ingestion: load the documents, return successfully with
nothing written when there are none, otherwise chunk and build. -/
def run_ingestion {α : Type} (splitter : String → List String)
    (embedFn : String → List α) (okIndex okTexts okMetas : Bool)
    (files : List (String × Option String)) (fs : FS α) :
    FS α × Except String Unit :=
  let documents := load_pdfs files
  if documents.isEmpty then (fs, Except.ok ())
  else
    let (texts, metadatas) := chunk_documents splitter documents
    build_faiss_index embedFn okIndex okTexts okMetas texts metadatas fs

theorem chunk_documents_length_eq (splitter : String → List String) :
    ∀ docs, (chunk_documents splitter docs).1.length = (chunk_documents splitter docs).2.length := by
  intro docs
  induction docs with
  | nil => rfl
  | cons d rest ih =>
    obtain ⟨fp, text⟩ := d
    simp only [chunk_documents]
    simp [ih]

theorem build_success_spec {α : Type} (embedFn : String → List α)
    (okIndex okTexts okMetas : Bool) (texts : List String)
    (metadatas : List Metadata) (fs fs' : FS α)
    (h : build_faiss_index embedFn okIndex okTexts okMetas texts metadatas fs =
      (fs', Except.ok ())) :
    okIndex = true ∧ okTexts = true ∧ okMetas = true ∧ texts ≠ [] ∧
    fs' = { fs with
            dirExists := true,
            indexFile := some (texts.map embedFn),
            textsFile := some texts,
            metadatasFile := some metadatas } := by
  cases texts with
  | nil =>
    simp [build_faiss_index, embed_texts_loaded, npShape] at h
  | cons t ts =>
    simp only [build_faiss_index] at h
    split at h
    · simp at h
    · split at h
      · simp at h
      · cases okIndex with
        | false => simp at h
        | true =>
          cases okTexts with
          | false => simp at h
          | true =>
            cases okMetas with
            | false => simp at h
            | true =>
              refine ⟨rfl, rfl, rfl, by simp, ?_⟩
              have hfst := congrArg Prod.fst h
              simp only at hfst
              rw [← hfst]
              rfl

/-- C1: the chunker's two output lists always have equal length, and a
successful build persists exactly the chunk texts, their metadata records
and their vectors, all aligned by position and of the same length as the
chunk list. -/
theorem chunk_and_build_alignment {α : Type} (splitter : String → List String)
    (embedFn : String → List α) (okIndex okTexts okMetas : Bool)
    (docs : List (String × String)) (fs fs' : FS α)
    (hbuild : build_faiss_index embedFn okIndex okTexts okMetas
        (chunk_documents splitter docs).1 (chunk_documents splitter docs).2 fs =
      (fs', Except.ok ())) :
    (chunk_documents splitter docs).1.length = (chunk_documents splitter docs).2.length ∧
    fs'.indexFile = some ((chunk_documents splitter docs).1.map embedFn) ∧
    fs'.textsFile = some (chunk_documents splitter docs).1 ∧
    fs'.metadatasFile = some (chunk_documents splitter docs).2 ∧
    ((chunk_documents splitter docs).1.map embedFn).length =
      (chunk_documents splitter docs).1.length := by
  obtain ⟨_, _, _, _, hfs⟩ := build_success_spec _ _ _ _ _ _ _ _ hbuild
  subst hfs
  exact ⟨chunk_documents_length_eq splitter docs, rfl, rfl, rfl, List.length_map _ _⟩

/-- Concrete successful build: one document, one chunk per document, all
three artifacts equal-length and aligned. -/
theorem chunk_and_build_alignment_witness :
    (chunk_documents (fun s => [s]) [("a.pdf", "hello")]).1.length =
      (chunk_documents (fun s => [s]) [("a.pdf", "hello")]).2.length ∧
    (⟨true, some [[(0 : Nat)]], some ["hello"],
        some [parse_filename_metadata "a.pdf"]⟩ : FS Nat).indexFile =
      some ((chunk_documents (fun s => [s]) [("a.pdf", "hello")]).1.map (fun _ => [0])) ∧
    (⟨true, some [[(0 : Nat)]], some ["hello"],
        some [parse_filename_metadata "a.pdf"]⟩ : FS Nat).textsFile =
      some (chunk_documents (fun s => [s]) [("a.pdf", "hello")]).1 ∧
    (⟨true, some [[(0 : Nat)]], some ["hello"],
        some [parse_filename_metadata "a.pdf"]⟩ : FS Nat).metadatasFile =
      some (chunk_documents (fun s => [s]) [("a.pdf", "hello")]).2 ∧
    ((chunk_documents (fun s => [s]) [("a.pdf", "hello")]).1.map
        (fun _ => [(0 : Nat)])).length =
      (chunk_documents (fun s => [s]) [("a.pdf", "hello")]).1.length :=
  @chunk_and_build_alignment Nat (fun s => [s]) (fun _ => [0]) true true true
    [("a.pdf", "hello")] ⟨false, none, none, none⟩
    ⟨true, some [[0]], some ["hello"], some [parse_filename_metadata "a.pdf"]⟩ rfl

/-- C9: building from empty input lists does not produce an empty index:
after the destination directory is created, taking dimension 1 of the
shape of the empty embeddings array raises, before any of the three
artifact files is written. -/
theorem build_empty_input_raises {α : Type} (embedFn : String → List α)
    (okIndex okTexts okMetas : Bool) (fs : FS α) :
    build_faiss_index embedFn okIndex okTexts okMetas [] [] fs =
      ({ fs with dirExists := true }, Except.error "IndexError: tuple index out of range") := rfl

/-- C2 counterexample: with artifacts of a previous build on disk, a
failing texts.npy write makes the build fail but leaves the new index file
written next to the stale texts and metadata stores — an observable
half-updated artifact set. -/
theorem build_write_failure_half_update :
    (build_faiss_index (fun _ => [(1 : Nat)]) true false true ["new"]
        [parse_filename_metadata "new.pdf"]
        ⟨true, some [[9]], some ["old"], some [parse_filename_metadata "old.pdf"]⟩).2 =
      Except.error "failed to write texts.npy" ∧
    (build_faiss_index (fun _ => [(1 : Nat)]) true false true ["new"]
        [parse_filename_metadata "new.pdf"]
        ⟨true, some [[9]], some ["old"], some [parse_filename_metadata "old.pdf"]⟩).1.indexFile =
      some [[1]] ∧
    (build_faiss_index (fun _ => [(1 : Nat)]) true false true ["new"]
        [parse_filename_metadata "new.pdf"]
        ⟨true, some [[9]], some ["old"], some [parse_filename_metadata "old.pdf"]⟩).1.textsFile =
      some ["old"] ∧
    (build_faiss_index (fun _ => [(1 : Nat)]) true false true ["new"]
        [parse_filename_metadata "new.pdf"]
        ⟨true, some [[9]], some ["old"], some [parse_filename_metadata "old.pdf"]⟩).1.metadatasFile =
      some [parse_filename_metadata "old.pdf"] :=
  ⟨rfl, rfl, rfl, rfl⟩

/-- C2 (amended): when one of the three artifact writes fails the build
fails with an error, but the writes happen in order index.faiss, texts.npy,
metadatas.npy, in place: every artifact written before the failing write is
updated, and every artifact from the failing write on keeps its previous
content — a reader can observe a half-updated artifact set. -/
theorem build_write_failure_behavior {α : Type} (embedFn : String → List α)
    (texts : List String) (metadatas : List Metadata) (fs : FS α)
    (sh : List Nat) (d : Nat)
    (hshape : npShape (embed_texts_loaded embedFn texts) = some sh)
    (hd : sh[1]? = some d) :
    (∀ okTexts okMetas,
      build_faiss_index embedFn false okTexts okMetas texts metadatas fs =
        ({ fs with dirExists := true }, Except.error "failed to write index.faiss")) ∧
    (∀ okMetas,
      build_faiss_index embedFn true false okMetas texts metadatas fs =
        ({ fs with
           dirExists := true,
           indexFile := some (embed_texts_loaded embedFn texts) },
         Except.error "failed to write texts.npy")) ∧
    build_faiss_index embedFn true true false texts metadatas fs =
      ({ fs with
         dirExists := true,
         indexFile := some (embed_texts_loaded embedFn texts),
         textsFile := some texts },
       Except.error "failed to write metadatas.npy") := by
  refine ⟨fun okT okM => ?_, fun okM => ?_, ?_⟩ <;>
    simp [build_faiss_index, hshape, hd]

/-- Concrete write-failure run discharging the hypotheses of the
write-failure theorem at a one-chunk input. -/
theorem build_write_failure_behavior_witness :
    build_faiss_index (fun _ => [(1 : Nat)]) true false true ["new"]
        [parse_filename_metadata "new.pdf"] ⟨false, none, none, none⟩ =
      (⟨true, some [[1]], none, none⟩,
       Except.error "failed to write texts.npy") := by
  have h := @build_write_failure_behavior Nat (fun _ => [1]) ["new"]
    [parse_filename_metadata "new.pdf"] ⟨false, none, none, none⟩ [1, 1] 1 rfl rfl
  exact h.2.1 true

theorem load_pdfs_text_ne_empty : ∀ files, ∀ d ∈ load_pdfs files, d.2 ≠ "" := by
  intro files
  induction files with
  | nil => intro d hd; cases hd
  | cons f rest ih =>
    obtain ⟨fp, raw?⟩ := f
    cases raw? with
    | none =>
      intro d hd
      rw [load_pdfs] at hd
      exact ih d hd
    | some raw =>
      intro d hd
      rw [load_pdfs] at hd
      by_cases hcl : clean_text raw = ""
      · rw [if_pos hcl] at hd
        exact ih d hd
      · rw [if_neg hcl] at hd
        rcases List.mem_cons.mp hd with h | h
        · subst h; exact hcl
        · exact ih d h

theorem chunk_documents_ne_nil (splitter : String → List String)
    (hsp : ∀ t : String, t ≠ "" → splitter t ≠ []) :
    ∀ docs : List (String × String), (∀ d ∈ docs, d.2 ≠ "") → docs ≠ [] →
      (chunk_documents splitter docs).1 ≠ [] := by
  intro docs hne hd
  cases docs with
  | nil => exact absurd rfl hd
  | cons d rest =>
    obtain ⟨fp, text⟩ := d
    simp only [chunk_documents]
    intro hcontra
    rcases List.append_eq_nil.mp hcontra with ⟨h1, _⟩
    exact hsp text (hne ⟨fp, text⟩ (List.mem_cons_self _ _)) h1

/-- C6: when loading yields zero usable documents — and hence, for any
splitter producing at least one chunk from nonempty text, whenever
chunking yields zero chunks — run_ingestion returns successfully without
touching the artifact set: no directory creation, no writes, previous
artifacts intact. -/
theorem run_ingestion_empty_corpus_noop {α : Type} (splitter : String → List String)
    (embedFn : String → List α) (okIndex okTexts okMetas : Bool)
    (files : List (String × Option String)) (fs : FS α)
    (hsp : ∀ t : String, t ≠ "" → splitter t ≠ [])
    (hempty : load_pdfs files = [] ∨
      (chunk_documents splitter (load_pdfs files)).1 = []) :
    run_ingestion splitter embedFn okIndex okTexts okMetas files fs =
      (fs, Except.ok ()) := by
  have hdocs : load_pdfs files = [] := by
    rcases hempty with h | h
    · exact h
    · by_contra hne
      exact chunk_documents_ne_nil splitter hsp (load_pdfs files)
        (load_pdfs_text_ne_empty files) hne h
  rw [run_ingestion, hdocs]
  rfl

/-- Concrete empty-corpus run: a directory whose single file fails to
parse loads zero documents, and the run is a successful no-op on a
filesystem that already holds artifacts. -/
theorem run_ingestion_empty_corpus_noop_witness :
    run_ingestion (fun s => [s]) (fun _ => [(0 : Nat)]) true true true
        [("corrupt.pdf", none)]
        ⟨true, some [[5]], some ["kept"], some [parse_filename_metadata "kept.pdf"]⟩ =
      (⟨true, some [[5]], some ["kept"], some [parse_filename_metadata "kept.pdf"]⟩,
       Except.ok ()) :=
  @run_ingestion_empty_corpus_noop Nat (fun s => [s]) (fun _ => [0]) true true true
    [("corrupt.pdf", none)]
    ⟨true, some [[5]], some ["kept"], some [parse_filename_metadata "kept.pdf"]⟩
    (fun t _ => List.cons_ne_nil t []) (Or.inl rfl)

/-! ## Aliasing of chunk metadata (chunk_documents at the dict level)

Python dicts are mutable objects; here they are heap cells indexed by
allocation order.  chunk_documents builds the base metadata dict once per
document and appends base_meta.copy() — a fresh allocation carrying the
same value — for every chunk. -/

/-- Heap of metadata dicts: cells indexed by allocation order. -/
structure MetaHeap where
  cells : List Metadata
deriving DecidableEq

/-- Allocate a new dict holding v; returns the heap and the reference. -/
def MetaHeap.alloc (h : MetaHeap) (v : Metadata) : MetaHeap × Nat :=
  ({ cells := h.cells ++ [v] }, h.cells.length)

/-- Read the dict behind a reference. -/
def MetaHeap.lookup (h : MetaHeap) (r : Nat) : Option Metadata :=
  h.cells[r]?

/-- Mutate the dict behind a reference in place. -/
def MetaHeap.update (h : MetaHeap) (r : Nat) (v : Metadata) : MetaHeap :=
  { cells := h.cells.set r v }

/-- The per-chunk base_meta.copy() calls of one document: n fresh
allocations each holding the base value. -/
def allocCopies (h : MetaHeap) (v : Metadata) : Nat → MetaHeap × List Nat
  | 0 => (h, [])
  | n + 1 =>
    let h1 := (h.alloc v).1
    let prev := allocCopies h1 v n
    (prev.1, (h.alloc v).2 :: prev.2)

/-- Embeds chunk_documents at the dict level: per document the base
metadata dict is allocated once, and every chunk of the document appends a
fresh copy of it; the metadata store is the list of references in chunk
order. -/
def chunk_documents_heap (splitter : String → List String) :
    List (String × String) → MetaHeap → List String × List Nat × MetaHeap
  | [], h => ([], [], h)
  | (fp, text) :: rest, h =>
    let base := parse_filename_metadata fp
    let hb := (h.alloc base).1
    let chunks := splitter text
    let ac := allocCopies hb base chunks.length
    let prev := chunk_documents_heap splitter rest ac.1
    (chunks ++ prev.1, ac.2 ++ prev.2.1, prev.2.2)

theorem allocCopies_cells : ∀ (n : Nat) (h : MetaHeap) (v : Metadata),
    (allocCopies h v n).1.cells = h.cells ++ List.replicate n v := by
  intro n
  induction n with
  | zero => intro h v; simp [allocCopies]
  | succ n ih =>
    intro h v
    simp only [allocCopies, ih, MetaHeap.alloc, List.replicate_succ]
    simp

theorem allocCopies_refs : ∀ (n : Nat) (h : MetaHeap) (v : Metadata),
    (allocCopies h v n).2 = List.range' h.cells.length n := by
  intro n
  induction n with
  | zero => intro h v; simp [allocCopies]
  | succ n ih =>
    intro h v
    simp only [allocCopies, ih, MetaHeap.alloc]
    simp [List.range'_succ]

theorem chunk_heap_spec (splitter : String → List String) :
    ∀ (docs : List (String × String)) (h : MetaHeap),
      (∀ r ∈ (chunk_documents_heap splitter docs h).2.1,
        h.cells.length ≤ r ∧
          r < (chunk_documents_heap splitter docs h).2.2.cells.length) ∧
      (chunk_documents_heap splitter docs h).2.1.Pairwise (· < ·) ∧
      (∃ ext, (chunk_documents_heap splitter docs h).2.2.cells = h.cells ++ ext) ∧
      (∀ r ∈ (chunk_documents_heap splitter docs h).2.1,
        ∃ fp, fp ∈ docs.map Prod.fst ∧
          (chunk_documents_heap splitter docs h).2.2.lookup r =
            some (parse_filename_metadata fp)) := by
  intro docs
  induction docs with
  | nil =>
    intro h
    refine ⟨?_, ?_, ⟨[], by simp [chunk_documents_heap]⟩, ?_⟩
    · intro r hr; cases hr
    · exact List.Pairwise.nil
    · intro r hr; cases hr
  | cons doc rest ih =>
    obtain ⟨fp, text⟩ := doc
    intro h
    obtain ⟨ihb, ihp, ⟨ext, hext⟩, ihv⟩ :=
      ih (allocCopies ((h.alloc (parse_filename_metadata fp)).1)
        (parse_filename_metadata fp) (splitter text).length).1
    simp only [chunk_documents_heap]
    set base := parse_filename_metadata fp with hbase
    set cnt := (splitter text).length with hcnt
    set hb := (h.alloc base).1 with hhb
    set ac := allocCopies hb base cnt with hac
    have hbcells : hb.cells = h.cells ++ [base] := rfl
    have haccells : ac.1.cells = (h.cells ++ [base]) ++ List.replicate cnt base := by
      rw [hac, allocCopies_cells, hbcells]
    have hacrefs : ac.2 = List.range' (h.cells.length + 1) cnt := by
      rw [hac, allocCopies_refs, hbcells]
      simp
    have haclen : ac.1.cells.length = h.cells.length + 1 + cnt := by
      simp [haccells]
      omega
    set prev := chunk_documents_heap splitter rest ac.1 with hprev
    have hfinal : prev.2.2.cells = ac.1.cells ++ ext := hext
    have hfinlen : ac.1.cells.length ≤ prev.2.2.cells.length := by
      rw [hfinal]; simp
    refine ⟨?_, ?_, ?_, ?_⟩
    · intro r hr
      rcases List.mem_append.mp hr with hr | hr
      · rw [hacrefs] at hr
        rcases List.mem_range'_1.mp hr with ⟨h1, h2⟩
        exact ⟨by omega, by omega⟩
      · rcases ihb r hr with ⟨h1, h2⟩
        rw [haclen] at h1
        exact ⟨by omega, h2⟩
    · rw [List.pairwise_append]
      refine ⟨?_, ihp, ?_⟩
      · rw [hacrefs]
        exact List.pairwise_lt_range' _ cnt 1 (by omega)
      · intro a ha b hb'
        rw [hacrefs] at ha
        rcases List.mem_range'_1.mp ha with ⟨_, h2⟩
        rcases ihb b hb' with ⟨h3, _⟩
        rw [haclen] at h3
        omega
    · exact ⟨[base] ++ List.replicate cnt base ++ ext, by
        rw [hfinal, haccells]; simp⟩
    · intro r hr
      rcases List.mem_append.mp hr with hr | hr
      · refine ⟨fp, by simp, ?_⟩
        rw [hacrefs] at hr
        rcases List.mem_range'_1.mp hr with ⟨h1, h2⟩
        unfold MetaHeap.lookup
        rw [hfinal, List.getElem?_append_left (by omega), haccells,
          List.getElem?_append_right (by simp; omega)]
        have : r - (h.cells ++ [base]).length < cnt := by simp; omega
        rw [List.getElem?_replicate_of_lt this]
      · rcases ihv r hr with ⟨fp', hmem, hval⟩
        exact ⟨fp', by simp at hmem ⊢; exact Or.inr hmem, hval⟩

/-- C8: every chunk's metadata store entry is an independent copy — the
references are pairwise distinct, mutating the dict behind one chunk's
reference leaves every other chunk's dict unchanged, and each stored dict
is the filename metadata of one of the source documents. -/
theorem chunk_metadata_copies_independent (splitter : String → List String)
    (docs : List (String × String)) (i j : Nat) (v : Metadata)
    (hi : i < (chunk_documents_heap splitter docs ⟨[]⟩).2.1.length)
    (hj : j < (chunk_documents_heap splitter docs ⟨[]⟩).2.1.length)
    (hij : i ≠ j) :
    (chunk_documents_heap splitter docs ⟨[]⟩).2.1.Nodup ∧
    ((chunk_documents_heap splitter docs ⟨[]⟩).2.2.update
        ((chunk_documents_heap splitter docs ⟨[]⟩).2.1.get ⟨i, hi⟩) v).lookup
        ((chunk_documents_heap splitter docs ⟨[]⟩).2.1.get ⟨j, hj⟩) =
      (chunk_documents_heap splitter docs ⟨[]⟩).2.2.lookup
        ((chunk_documents_heap splitter docs ⟨[]⟩).2.1.get ⟨j, hj⟩) ∧
    (∃ fp, fp ∈ docs.map Prod.fst ∧
      (chunk_documents_heap splitter docs ⟨[]⟩).2.2.lookup
        ((chunk_documents_heap splitter docs ⟨[]⟩).2.1.get ⟨j, hj⟩) =
        some (parse_filename_metadata fp)) := by
  obtain ⟨_, hpw, _, hval⟩ := chunk_heap_spec splitter docs ⟨[]⟩
  have hnd : (chunk_documents_heap splitter docs ⟨[]⟩).2.1.Nodup :=
    hpw.imp Nat.ne_of_lt
  have hne : (chunk_documents_heap splitter docs ⟨[]⟩).2.1.get ⟨i, hi⟩ ≠
      (chunk_documents_heap splitter docs ⟨[]⟩).2.1.get ⟨j, hj⟩ := by
    intro he
    exact hij (congrArg Fin.val ((List.Nodup.get_inj_iff hnd).mp he))
  refine ⟨hnd, ?_, ?_⟩
  · unfold MetaHeap.update MetaHeap.lookup
    exact List.getElem?_set_ne hne
  · obtain ⟨fp, hmem, hv⟩ := hval _ (List.get_mem _ _ hj)
    exact ⟨fp, hmem, hv⟩

/-- Concrete aliasing check: one document split into two chunks; mutating
the first chunk's dict leaves the second chunk's dict intact. -/
theorem chunk_metadata_copies_independent_witness :
    (chunk_documents_heap (fun s => [s, s]) [("a.pdf", "x")] ⟨[]⟩).2.1.Nodup ∧
    ((chunk_documents_heap (fun s => [s, s]) [("a.pdf", "x")] ⟨[]⟩).2.2.update
        ((chunk_documents_heap (fun s => [s, s]) [("a.pdf", "x")] ⟨[]⟩).2.1.get
          ⟨0, by decide⟩)
        (parse_filename_metadata "other.pdf")).lookup
        ((chunk_documents_heap (fun s => [s, s]) [("a.pdf", "x")] ⟨[]⟩).2.1.get
          ⟨1, by decide⟩) =
      (chunk_documents_heap (fun s => [s, s]) [("a.pdf", "x")] ⟨[]⟩).2.2.lookup
        ((chunk_documents_heap (fun s => [s, s]) [("a.pdf", "x")] ⟨[]⟩).2.1.get
          ⟨1, by decide⟩) ∧
    (∃ fp, fp ∈ ([("a.pdf", "x")] : List (String × String)).map Prod.fst ∧
      (chunk_documents_heap (fun s => [s, s]) [("a.pdf", "x")] ⟨[]⟩).2.2.lookup
        ((chunk_documents_heap (fun s => [s, s]) [("a.pdf", "x")] ⟨[]⟩).2.1.get
          ⟨1, by decide⟩) =
        some (parse_filename_metadata fp)) :=
  chunk_metadata_copies_independent (fun s => [s, s]) [("a.pdf", "x")] 0 1
    (parse_filename_metadata "other.pdf") (by decide) (by decide) (by decide)

/-! ## Concurrency of the lazy model load (EmbeddingService.model)

The body of the model property reads the _model attribute, and when it is
None constructs the model and assigns it — with no lock around either
action (the class lock only guards instance creation in the __new__ body).
Two threads triggering first use are modelled as an interleaving of these
atomic actions. -/

/-- Program counter of one thread in the model property body: before the
None check, after passing the None check but before construct-and-assign,
and finished. -/
inductive TPC
  | tCheck
  | tAssign
  | tDone
deriving DecidableEq

/-- Shared state and the two thread program counters: the _model attribute
(model handles are numbered by construction order) and the count of
TextEmbedding constructions performed. -/
structure CState where
  modelSlot : Option Nat
  loads : Nat
  pc1 : TPC
  pc2 : TPC
deriving DecidableEq

/-- One interleaving step of the two threads, each executing the unlocked
model property body: a thread at the check reads _model and either passes
(None) or finishes with the present model; a thread past the check
constructs the model (one load event) and assigns it unconditionally. -/
inductive CStep : CState → CState → Prop
  | check1_none (l : Nat) (p : TPC) :
      CStep ⟨none, l, TPC.tCheck, p⟩ ⟨none, l, TPC.tAssign, p⟩
  | check1_some (m l : Nat) (p : TPC) :
      CStep ⟨some m, l, TPC.tCheck, p⟩ ⟨some m, l, TPC.tDone, p⟩
  | assign1 (mo : Option Nat) (l : Nat) (p : TPC) :
      CStep ⟨mo, l, TPC.tAssign, p⟩ ⟨some l, l + 1, TPC.tDone, p⟩
  | check2_none (l : Nat) (p : TPC) :
      CStep ⟨none, l, p, TPC.tCheck⟩ ⟨none, l, p, TPC.tAssign⟩
  | check2_some (m l : Nat) (p : TPC) :
      CStep ⟨some m, l, p, TPC.tCheck⟩ ⟨some m, l, p, TPC.tDone⟩
  | assign2 (mo : Option Nat) (l : Nat) (p : TPC) :
      CStep ⟨mo, l, p, TPC.tAssign⟩ ⟨some l, l + 1, p, TPC.tDone⟩

/-- C3 divergence: from the state with no model loaded and two threads
about to run the model property, there is an interleaving in which both
threads finish and the model was constructed twice — both threads read
None before either assigns, because the body takes no lock — so the
exactly-one-load-event guarantee claimed for concurrent first use fails. -/
theorem double_model_load_reachable :
    ∃ s : CState, Relation.ReflTransGen CStep ⟨none, 0, TPC.tCheck, TPC.tCheck⟩ s ∧
      s.pc1 = TPC.tDone ∧ s.pc2 = TPC.tDone ∧ s.loads = 2 := by
  refine ⟨⟨some 1, 2, TPC.tDone, TPC.tDone⟩, ?_, rfl, rfl, rfl⟩
  exact Relation.ReflTransGen.head (CStep.check1_none 0 TPC.tCheck)
    (Relation.ReflTransGen.head (CStep.check2_none 0 TPC.tAssign)
      (Relation.ReflTransGen.head (CStep.assign1 none 0 TPC.tAssign)
        (Relation.ReflTransGen.head (CStep.assign2 (some 0) 1 TPC.tDone)
          Relation.ReflTransGen.refl)))

end Nyaya
